import Mathlib

/-!
Shallow embedding of the test-case model and comparison engine of
logstash-filter-verifier.

`logstash/result.go` supplies the event model (`Event` is a JSON-shaped
string-keyed map, `Result` bundles a success flag, events and a log).  The
test-case engine (`New`, `NewFromFile`, `Compare`, `marshalToFile`) is
specified in the design document and exercised by `testcase/testcase_test.go`;
its Go source file is not part of the provided sources, so those operations
are modelled from the spec, faithful to its algorithm description and to the
behaviour the tests pin down.

Events are modelled as association lists in canonical form standing for Go's
`map[string]interface{}`; JSON-shaped values are a closed variant type.  JSON
numbers are modelled as integers: the spec leaves the source's numeric
(float64) tolerance explicitly open ("ecosystem-dependent"), and float
semantics are outside the model.
-/

/-- A JSON-shaped value: null, boolean, number, string, sequence or mapping.
Mappings are association lists in canonical (insertion-ordered, key-unique)
form representing Go's unordered maps. -/
inductive JSONValue where
  | null : JSONValue
  | bool (b : Bool) : JSONValue
  | num (n : Int) : JSONValue
  | str (s : String) : JSONValue
  | arr (elems : List JSONValue) : JSONValue
  | obj (fields : List (String × JSONValue)) : JSONValue

mutual

/-- Deep structural equality of JSON-shaped values is decidable. -/
def JSONValue.decEq : (a b : JSONValue) → Decidable (a = b)
  | .null, .null => isTrue rfl
  | .bool a, .bool b =>
    if h : a = b then isTrue (by rw [h]) else isFalse (fun hh => h (by cases hh; rfl))
  | .num a, .num b =>
    if h : a = b then isTrue (by rw [h]) else isFalse (fun hh => h (by cases hh; rfl))
  | .str a, .str b =>
    if h : a = b then isTrue (by rw [h]) else isFalse (fun hh => h (by cases hh; rfl))
  | .arr xs, .arr ys =>
    match JSONValue.decEqList xs ys with
    | isTrue h => isTrue (by rw [h])
    | isFalse h => isFalse (fun hh => h (by cases hh; rfl))
  | .obj xs, .obj ys =>
    match JSONValue.decEqFields xs ys with
    | isTrue h => isTrue (by rw [h])
    | isFalse h => isFalse (fun hh => h (by cases hh; rfl))
  | .null, .bool _ => isFalse (fun h => JSONValue.noConfusion h)
  | .null, .num _ => isFalse (fun h => JSONValue.noConfusion h)
  | .null, .str _ => isFalse (fun h => JSONValue.noConfusion h)
  | .null, .arr _ => isFalse (fun h => JSONValue.noConfusion h)
  | .null, .obj _ => isFalse (fun h => JSONValue.noConfusion h)
  | .bool _, .null => isFalse (fun h => JSONValue.noConfusion h)
  | .bool _, .num _ => isFalse (fun h => JSONValue.noConfusion h)
  | .bool _, .str _ => isFalse (fun h => JSONValue.noConfusion h)
  | .bool _, .arr _ => isFalse (fun h => JSONValue.noConfusion h)
  | .bool _, .obj _ => isFalse (fun h => JSONValue.noConfusion h)
  | .num _, .null => isFalse (fun h => JSONValue.noConfusion h)
  | .num _, .bool _ => isFalse (fun h => JSONValue.noConfusion h)
  | .num _, .str _ => isFalse (fun h => JSONValue.noConfusion h)
  | .num _, .arr _ => isFalse (fun h => JSONValue.noConfusion h)
  | .num _, .obj _ => isFalse (fun h => JSONValue.noConfusion h)
  | .str _, .null => isFalse (fun h => JSONValue.noConfusion h)
  | .str _, .bool _ => isFalse (fun h => JSONValue.noConfusion h)
  | .str _, .num _ => isFalse (fun h => JSONValue.noConfusion h)
  | .str _, .arr _ => isFalse (fun h => JSONValue.noConfusion h)
  | .str _, .obj _ => isFalse (fun h => JSONValue.noConfusion h)
  | .arr _, .null => isFalse (fun h => JSONValue.noConfusion h)
  | .arr _, .bool _ => isFalse (fun h => JSONValue.noConfusion h)
  | .arr _, .num _ => isFalse (fun h => JSONValue.noConfusion h)
  | .arr _, .str _ => isFalse (fun h => JSONValue.noConfusion h)
  | .arr _, .obj _ => isFalse (fun h => JSONValue.noConfusion h)
  | .obj _, .null => isFalse (fun h => JSONValue.noConfusion h)
  | .obj _, .bool _ => isFalse (fun h => JSONValue.noConfusion h)
  | .obj _, .num _ => isFalse (fun h => JSONValue.noConfusion h)
  | .obj _, .str _ => isFalse (fun h => JSONValue.noConfusion h)
  | .obj _, .arr _ => isFalse (fun h => JSONValue.noConfusion h)

/-- Decidable equality of JSON value sequences. -/
def JSONValue.decEqList : (xs ys : List JSONValue) → Decidable (xs = ys)
  | [], [] => isTrue rfl
  | [], _ :: _ => isFalse (fun h => List.noConfusion h)
  | _ :: _, [] => isFalse (fun h => List.noConfusion h)
  | x :: xs, y :: ys =>
    match JSONValue.decEq x y with
    | isFalse h => isFalse (fun hh => h (by cases hh; rfl))
    | isTrue h₁ =>
      match JSONValue.decEqList xs ys with
      | isTrue h₂ => isTrue (by rw [h₁, h₂])
      | isFalse h => isFalse (fun hh => h (by cases hh; rfl))

/-- Decidable equality of JSON object field lists. -/
def JSONValue.decEqFields : (xs ys : List (String × JSONValue)) → Decidable (xs = ys)
  | [], [] => isTrue rfl
  | [], _ :: _ => isFalse (fun h => List.noConfusion h)
  | _ :: _, [] => isFalse (fun h => List.noConfusion h)
  | (k₁, v₁) :: xs, (k₂, v₂) :: ys =>
    if hk : k₁ = k₂ then
      match JSONValue.decEq v₁ v₂ with
      | isFalse h => isFalse (fun hh => h (by cases hh; rfl))
      | isTrue hv =>
        match JSONValue.decEqFields xs ys with
        | isTrue ht => isTrue (by rw [hk, hv, ht])
        | isFalse h => isFalse (fun hh => h (by cases hh; rfl))
    else isFalse (fun hh => hk (by cases hh; rfl))

end

instance : DecidableEq JSONValue := JSONValue.decEq

/-- `Event` from `logstash/result.go`: a Logstash event, i.e. basically a
JSON document — a mapping from field names to JSON-shaped values. -/
abbrev Event := List (String × JSONValue)

/-- `Result` from `logstash/result.go`: the result of a Logstash execution. -/
structure Result where
  Success : Bool
  Events : List Event
  Log : String

/-- `TestCase`: the expectation document of the test-case engine. -/
structure TestCase where
  File : String := ""
  Codec : String := ""
  «Type» : String := ""
  IgnoredFields : List String := []
  InputLines : List String := []
  ExpectedEvents : List Event := []
deriving DecidableEq

/-- `MismatchedEvent`: one position at which the actual and expected events
differ, carrying the unfiltered events and the zero-based index. -/
structure MismatchedEvent where
  Actual : Event
  Expected : Event
  Index : Nat
deriving DecidableEq

/-- `ComparisonError`: the structured diagnostic returned on a failed
comparison. -/
structure ComparisonError where
  ActualCount : Nat
  ExpectedCount : Nat
  Mismatches : List MismatchedEvent
deriving DecidableEq

/-- Remove every field whose name appears in `ignored` from an event
(the filtered copy built by the comparison engine). -/
def filterEvent (ignored : List String) (e : Event) : Event :=
  e.filter (fun f => !(ignored.contains f.1))

/-- Walk the actual and expected sequences pairwise from index `i`,
collecting one `MismatchedEvent` (with the unfiltered events) per index whose
filtered events are unequal. -/
def collectMismatches (ignored : List String) (useIgnored : Bool) :
    Nat → List Event → List Event → List MismatchedEvent
  | _, [], _ => []
  | _, _ :: _, [] => []
  | i, a :: restA, e :: restE =>
    if (if useIgnored then filterEvent ignored a else a) =
        (if useIgnored then filterEvent ignored e else e) then
      collectMismatches ignored useIgnored (i + 1) restA restE
    else ⟨a, e, i⟩ :: collectMismatches ignored useIgnored (i + 1) restA restE

/-- Modelled from the spec: `Compare` (testcase.go, not among the provided
sources).  Decides whether the actually emitted events match the test case's
expected events.  A count mismatch is reported with empty `Mismatches`;
otherwise the sequences are walked pairwise by index, comparing filtered
copies (when `useIgnored` is set) by deep structural equality, and a populated
`ComparisonError` is returned exactly when some index mismatches. -/
def TestCase.Compare (tc : TestCase) (events : List Event) (useIgnored : Bool) :
    Option ComparisonError :=
  if events.length ≠ tc.ExpectedEvents.length then
    some ⟨events.length, tc.ExpectedEvents.length, []⟩
  else
    match collectMismatches tc.IgnoredFields useIgnored 0 events tc.ExpectedEvents with
    | [] => none
    | m :: rest => some ⟨events.length, tc.ExpectedEvents.length, m :: rest⟩

/-- The indices at which the filtered actual and expected events differ. -/
def mismatchingIndices (ignored : List String) (useIgnored : Bool)
    (events expected : List Event) : List Nat :=
  (List.range events.length).filter (fun i =>
    decide ((if useIgnored then filterEvent ignored (events.getD i []) else events.getD i []) ≠
      (if useIgnored then filterEvent ignored (expected.getD i []) else expected.getD i [])))

/-! ## JSON text model

The loader decodes a JSON document and `marshalToFile` writes an indented
JSON serialization.  The serialized form is modelled concretely as character
lists: a renderer producing the indented text (two-space indentation, in the
style of `json.MarshalIndent`) and a recursive-descent reader.  The model
escapes the two characters that its string grammar requires (quote and
backslash) and takes every other character verbatim. -/

/-- The opening curly bracket character. -/
def braceL : Char := Char.ofNat 123

/-- The closing curly bracket character. -/
def braceR : Char := Char.ofNat 125

/-- Whitespace accepted between JSON tokens. -/
def isWsChar (c : Char) : Bool :=
  c == ' ' || c == '\n' || c == '\t' || c == '\r'

/-- Drop leading whitespace. -/
def skipWs : List Char → List Char
  | [] => []
  | c :: cs => if isWsChar c then skipWs cs else c :: cs

/-- Two spaces of indentation per nesting level. -/
def indentChars (n : Nat) : List Char := List.replicate (2 * n) ' '

/-- The digit character for `d < 10`. -/
def digitChar (d : Nat) : Char := Char.ofNat (48 + d)

/-- Numeric value of a digit character. -/
def charToDigit (c : Char) : Nat := c.toNat - 48

/-- Decimal rendering of a natural number, most significant digit first. -/
def natToChars (n : Nat) : List Char :=
  if _h : n < 10 then [digitChar n]
  else natToChars (n / 10) ++ [digitChar (n % 10)]
decreasing_by exact Nat.div_lt_self (by omega) (by omega)

/-- Decimal rendering of an integer. -/
def intToChars (n : Int) : List Char :=
  if n < 0 then '-' :: natToChars n.natAbs else natToChars n.natAbs

/-- Value of a most-significant-first digit sequence. -/
def digitsToNat (ds : List Char) : Nat :=
  ds.foldl (fun a c => 10 * a + charToDigit c) 0

/-- Longest digit prefix and the remainder. -/
def spanDigits : List Char → List Char × List Char
  | [] => ([], [])
  | c :: cs =>
    if c.isDigit then
      let (ds, rest) := spanDigits cs
      (c :: ds, rest)
    else ([], c :: cs)

/-- Escape one character of a JSON string body. -/
def escapeChar (c : Char) : List Char :=
  if c = '"' ∨ c = '\\' then ['\\', c] else [c]

/-- Escape a JSON string body. -/
def escapeStr : List Char → List Char
  | [] => []
  | c :: cs => escapeChar c ++ escapeStr cs

/-- Render a JSON string with its surrounding quotes. -/
def renderString (s : String) : List Char :=
  '"' :: (escapeStr s.data ++ ['"'])

mutual

/-- Size of a JSON value: the number of nodes, which bounds both the reader's
recursion depth and (from below) the rendered length. -/
def sizeV : JSONValue → Nat
  | .arr xs => 1 + sizeVList xs
  | .obj fs => 1 + sizeVFields fs
  | _ => 1

def sizeVList : List JSONValue → Nat
  | [] => 0
  | x :: xs => 1 + sizeV x + sizeVList xs

def sizeVFields : List (String × JSONValue) → Nat
  | [] => 0
  | f :: fs => 1 + sizeV f.2 + sizeVFields fs

end

mutual

/-- Render a JSON value at nesting level `ind` as indented JSON text. -/
def renderVal : Nat → JSONValue → List Char
  | _, .null => ['n', 'u', 'l', 'l']
  | _, .bool true => ['t', 'r', 'u', 'e']
  | _, .bool false => ['f', 'a', 'l', 's', 'e']
  | _, .num n => intToChars n
  | _, .str s => renderString s
  | _, .arr [] => ['[', ']']
  | ind, .arr (x :: xs) =>
    '[' :: '\n' :: (indentChars (ind + 1) ++ renderVal (ind + 1) x ++
      renderItems ind xs ++ ('\n' :: (indentChars ind ++ [']'])))
  | _, .obj [] => [braceL, braceR]
  | ind, .obj (f :: fs) =>
    braceL :: '\n' :: (indentChars (ind + 1) ++ renderField (ind + 1) f ++
      renderFieldsRest ind fs ++ ('\n' :: (indentChars ind ++ [braceR])))

/-- Render the remaining array items, each preceded by a comma, a newline and
indentation. -/
def renderItems : Nat → List JSONValue → List Char
  | _, [] => []
  | ind, x :: xs =>
    ',' :: '\n' :: (indentChars (ind + 1) ++ renderVal (ind + 1) x ++ renderItems ind xs)

/-- Render one object member: quoted key, colon, space, value. -/
def renderField : Nat → String × JSONValue → List Char
  | ind, f => renderString f.1 ++ (':' :: ' ' :: renderVal ind f.2)

/-- Render the remaining object members, each preceded by a comma, a newline
and indentation. -/
def renderFieldsRest : Nat → List (String × JSONValue) → List Char
  | _, [] => []
  | ind, f :: fs =>
    ',' :: '\n' :: (indentChars (ind + 1) ++ renderField (ind + 1) f ++ renderFieldsRest ind fs)

end

/-- Read the body of a JSON string after its opening quote: characters up to
the next unescaped quote, a backslash escaping the character after it. -/
def parseStrChars : List Char → Option (List Char × List Char)
  | [] => none
  | '"' :: rest => some ([], rest)
  | '\\' :: [] => none
  | '\\' :: c₂ :: rest₂ =>
    match parseStrChars rest₂ with
    | some (chars, r) => some (c₂ :: chars, r)
    | none => none
  | c :: rest =>
    match parseStrChars rest with
    | some (chars, r) => some (c :: chars, r)
    | none => none

/-- Read a JSON string body and pack it into a `String`. -/
def parseStringBody (cs : List Char) : Option (String × List Char) :=
  match parseStrChars cs with
  | some (chars, rest) => some (String.mk chars, rest)
  | none => none

mutual

/-- Fuel-bounded recursive-descent reader for a JSON value.  Leading
whitespace is skipped; the fuel bounds the nesting/sequence recursion. -/
def parseVal : Nat → List Char → Option (JSONValue × List Char)
  | 0, _ => none
  | fuel + 1, input =>
    match skipWs input with
    | [] => none
    | c :: cs =>
      if c = 'n' then
        match cs with
        | 'u' :: 'l' :: 'l' :: rest => some (.null, rest)
        | _ => none
      else if c = 't' then
        match cs with
        | 'r' :: 'u' :: 'e' :: rest => some (.bool true, rest)
        | _ => none
      else if c = 'f' then
        match cs with
        | 'a' :: 'l' :: 's' :: 'e' :: rest => some (.bool false, rest)
        | _ => none
      else if c = '"' then
        match parseStringBody cs with
        | some (s, rest) => some (.str s, rest)
        | none => none
      else if c = '-' then
        match spanDigits cs with
        | ([], _) => none
        | (ds, rest) => some (.num (-(digitsToNat ds : Int)), rest)
      else if c.isDigit then
        match spanDigits (c :: cs) with
        | (ds, rest) => some (.num (digitsToNat ds : Int), rest)
      else if c = '[' then
        match skipWs cs with
        | ']' :: rest => some (.arr [], rest)
        | cs' =>
          match parseVal fuel cs' with
          | some (v, rest) =>
            match parseArrRest fuel rest with
            | some (vs, rest') => some (.arr (v :: vs), rest')
            | none => none
          | none => none
      else if c = braceL then
        match skipWs cs with
        | [] => none
        | c' :: rest =>
          if c' = braceR then some (.obj [], rest)
          else
            match parseField fuel (c' :: rest) with
            | some (kv, rest₁) =>
              match parseObjRest fuel rest₁ with
              | some (kvs, rest₂) => some (.obj (kv :: kvs), rest₂)
              | none => none
            | none => none
      else none

/-- Read one object member: quoted key, colon, value. -/
def parseField : Nat → List Char → Option ((String × JSONValue) × List Char)
  | 0, _ => none
  | fuel + 1, input =>
    match skipWs input with
    | '"' :: cs =>
      match parseStringBody cs with
      | some (k, rest) =>
        match skipWs rest with
        | ':' :: rest₁ =>
          match parseVal fuel rest₁ with
          | some (v, rest₂) => some ((k, v), rest₂)
          | none => none
        | _ => none
      | none => none
    | _ => none

/-- After one array item: a comma and another item, or the closing bracket. -/
def parseArrRest : Nat → List Char → Option (List JSONValue × List Char)
  | 0, _ => none
  | fuel + 1, input =>
    match skipWs input with
    | ',' :: cs =>
      match parseVal fuel cs with
      | some (v, rest) =>
        match parseArrRest fuel rest with
        | some (vs, rest') => some (v :: vs, rest')
        | none => none
      | none => none
    | ']' :: cs => some ([], cs)
    | _ => none

/-- After one object member: a comma and another member, or the closing
brace. -/
def parseObjRest : Nat → List Char → Option (List (String × JSONValue) × List Char)
  | 0, _ => none
  | fuel + 1, input =>
    match skipWs input with
    | ',' :: cs =>
      match parseField fuel cs with
      | some (kv, rest) =>
        match parseObjRest fuel rest with
        | some (kvs, rest') => some (kv :: kvs, rest')
        | none => none
      | none => none
    | c :: cs => if c = braceR then some ([], cs) else none
    | [] => none

end

/-- Parse a complete JSON document: one value with only trailing whitespace
after it. -/
def parseJSON (s : String) : Option JSONValue :=
  match parseVal (s.data.length + 1) s.data with
  | some (v, rest) => if skipWs rest = [] then some v else none
  | none => none

/-- Only non-digit continuations are valid after a rendered number. -/
def delimOk (l : List Char) : Prop :=
  ∀ c cs, l = c :: cs → c.isDigit = false

/-! ## Loader and file model -/

/-- The fixed baseline ignored field: the version marker every pipeline run
emits. -/
def defaultIgnoredFields : List String := ["@version"]

/-- Modelled from the spec: the deserialized shape of a test-case document
(the JSON form read by `New` in testcase.go, which is not among the provided
sources): optional `type`, `codec`, `ignore`, `input` and `expected`
members. -/
structure TestCaseDocument where
  typ : Option String := none
  codec : Option String := none
  ignore : Option (List String) := none
  input : Option (List String) := none
  expected : Option (List Event) := none

/-- The loader's error taxonomy: a decode failure or an I/O failure. -/
inductive LoaderError where
  | DecodeError (msg : String)
  | IOError (msg : String)
deriving DecidableEq

/-- Look up a member of a JSON object by name (first occurrence). -/
def lookupField (fs : List (String × JSONValue)) (k : String) : Option JSONValue :=
  (fs.find? (fun f => f.1 == k)).map (fun f => f.2)

/-- A JSON value as a string, when it is one. -/
def asString : JSONValue → Option String
  | .str s => some s
  | _ => none

/-- A JSON value as a sequence of strings, when it is one. -/
def asStringList : JSONValue → Option (List String)
  | .arr xs => xs.mapM asString
  | _ => none

/-- A JSON value as an event, when it is an object. -/
def asEvent : JSONValue → Option Event
  | .obj fs => some fs
  | _ => none

/-- A JSON value as a sequence of events, when it is one. -/
def asEventList : JSONValue → Option (List Event)
  | .arr xs => xs.mapM asEvent
  | _ => none

/-- Read an optional member of the document object, failing when it is
present with the wrong shape. -/
def getOptField {α : Type} (conv : JSONValue → Option α)
    (fs : List (String × JSONValue)) (k : String) : Except String (Option α) :=
  match lookupField fs k with
  | none => .ok none
  | some v =>
    match conv v with
    | some a => .ok (some a)
    | none => .error ("json: cannot unmarshal field " ++ k)

/-- Structure a parsed JSON value as a test-case document.  Anything but an
object, or a member of the wrong shape, is structurally invalid; unknown
members are ignored. -/
def docOfValue : JSONValue → Except String TestCaseDocument
  | .obj fs =>
    match getOptField asString fs "type" with
    | .error msg => .error msg
    | .ok typ =>
      match getOptField asString fs "codec" with
      | .error msg => .error msg
      | .ok codec =>
        match getOptField asStringList fs "ignore" with
        | .error msg => .error msg
        | .ok ignore =>
          match getOptField asStringList fs "input" with
          | .error msg => .error msg
          | .ok input =>
            match getOptField asEventList fs "expected" with
            | .error msg => .error msg
            | .ok expected =>
              .ok { typ := typ, codec := codec, ignore := ignore, input := input,
                    expected := expected }
  | _ => .error "json: cannot unmarshal: test case is not an object"

/-- Defaulting policy applied by the loader: `codec` defaults to "plain" when
absent or empty, and the user-declared ignore entries are appended after the
fixed baseline ignored field. -/
def fromDocument (doc : TestCaseDocument) : TestCase :=
  { Codec := if doc.codec.getD "" = "" then "plain" else doc.codec.getD ""
    «Type» := doc.typ.getD ""
    IgnoredFields := defaultIgnoredFields ++ doc.ignore.getD []
    InputLines := doc.input.getD []
    ExpectedEvents := doc.expected.getD [] }

/-- Modelled from the spec: `New` (testcase.go, not among the provided
sources).  Reads a test-case description from its serialized form: malformed
or structurally invalid JSON fails with a `DecodeError`; otherwise the
document is validated and defaulted. -/
def New (input : String) : Except LoaderError TestCase :=
  match parseJSON input with
  | none => .error (.DecodeError "json: invalid character in test case")
  | some v =>
    match docOfValue v with
    | .error msg => .error (.DecodeError msg)
    | .ok doc => .ok (fromDocument doc)

/-- A path is absolute when it starts with the path separator. -/
def isAbsPath (p : String) : Bool :=
  match p.data with
  | c :: _ => c == '/'
  | [] => false

/-- Modelled from the spec: path resolution performed by the file-based entry
point (filepath.Abs): an absolute path is kept, a relative one is joined to
the current working directory. -/
def absPath (cwd path : String) : String :=
  if isAbsPath path then path else cwd ++ "/" ++ path

/-- Modelled from the spec: `NewFromFile` (testcase.go, not among the
provided sources).  The readable files are passed explicitly as a map from
absolute paths to contents; a missing entry models a file that cannot be
read, which fails with an `IOError`.  Otherwise the contents are loaded via
`New` and the resolved absolute path is stored in `File`. -/
def NewFromFile (files : List (String × String)) (cwd path : String) :
    Except LoaderError TestCase :=
  match (files.find? (fun f => f.1 == absPath cwd path)).map (fun f => f.2) with
  | none => .error (.IOError ("open " ++ absPath cwd path ++ ": no such file or directory"))
  | some contents =>
    match New contents with
    | .error e => .error e
    | .ok tc => .ok { tc with File := absPath cwd path }

/-- Modelled from the spec: the filesystem state touched by `marshalToFile` —
the set of existing directories and a map from file paths to contents, paths
being component lists. -/
structure FileSystem where
  dirs : List (List String)
  files : List (List String × String)

/-- The ancestor directories of a path: every proper prefix. -/
def parentPaths (path : List String) : List (List String) :=
  (List.range (path.length - 1)).map (fun i => path.take (i + 1))

/-- The serialized artifact: the event rendered as indented JSON followed by
a trailing newline. -/
def marshalContent (event : Event) : String :=
  String.mk (renderVal 0 (.obj event) ++ ['\n'])

/-- Read back an event from a file's contents: one JSON object with only
trailing whitespace after it. -/
def unmarshalEvent (s : String) : Option Event :=
  match parseJSON s with
  | some (.obj fs) => some fs
  | _ => none

/-- Modelled from the spec: `marshalToFile` (testcase.go, not among the
provided sources).  Creates the missing parent directories of `path`
(MkdirAll), then writes the indented JSON serialization of `event` followed
by a newline.  Directory creation fails when an ancestor of the path already
exists as a regular file; the write fails when the destination itself is an
existing directory; both failures are `IOError`s. -/
def marshalToFile (fs : FileSystem) (event : Event) (path : List String) :
    Except LoaderError FileSystem :=
  if (parentPaths path).any (fun p => fs.files.any (fun f => decide (f.1 = p))) then
    .error (.IOError "mkdir: not a directory")
  else if fs.dirs.any (fun d => decide (d = path)) then
    .error (.IOError "open: is a directory")
  else
    .ok { dirs := fs.dirs ++ (parentPaths path).filter (fun p => !(fs.dirs.any (fun d => decide (d = p))))
          files := (path, marshalContent event) :: fs.files.filter (fun f => !(decide (f.1 = path))) }

/-- The test case produced by loading `test.json` in `TestNewFromFile`. -/
def tcFromFileSample : TestCase :=
  { File := "/tmp/test.json", Codec := "plain", «Type» := "test",
    IgnoredFields := ["@version"] }

/-! Sample events mirroring the vectors of `testcase/testcase_test.go`. -/

def eventAB : Event := [("a", JSONValue.str "b")]

def eventCD : Event := [("c", JSONValue.str "d")]

def eventAUpper : Event := [("a", JSONValue.str "B")]

def eventWithIgnored : Event :=
  [("ignored", JSONValue.str "ignoreme"), ("not_ignored", JSONValue.str "value")]

def eventNotIgnored : Event := [("not_ignored", JSONValue.str "value")]

/-! ## Characterization of the comparison walk -/

theorem collectMismatches_shift (ign : List String) (flag : Bool) (xs ys : List Event)
    (k : Nat) :
    collectMismatches ign flag (k + 1) xs ys =
      (collectMismatches ign flag k xs ys).map
        (fun m => ⟨m.Actual, m.Expected, m.Index + 1⟩) := by
  induction xs generalizing ys k with
  | nil => simp [collectMismatches]
  | cons x xs ih =>
    cases ys with
    | nil => simp [collectMismatches]
    | cons y ys =>
      simp only [collectMismatches]
      by_cases h : (if flag then filterEvent ign x else x) =
          (if flag then filterEvent ign y else y)
      · simp [h, ih]
      · simp [h, ih]

theorem mismatchingIndices_cons (ign : List String) (flag : Bool) (x y : Event)
    (xs ys : List Event) :
    mismatchingIndices ign flag (x :: xs) (y :: ys) =
      (if (if flag then filterEvent ign x else x) = (if flag then filterEvent ign y else y)
        then [] else [0]) ++ (mismatchingIndices ign flag xs ys).map Nat.succ := by
  by_cases hxy : (if flag then filterEvent ign x else x) = (if flag then filterEvent ign y else y)
  · simp only [mismatchingIndices, List.length_cons, List.range_succ_eq_map, List.filter_cons,
      hxy, List.filter_map, List.getD_cons_zero, ne_eq, not_true_eq_false, decide_False,
      Bool.not_true, Bool.false_eq_true, if_false, List.nil_append]
    congr 1
  · simp only [mismatchingIndices, List.length_cons, List.range_succ_eq_map, List.filter_cons,
      hxy, List.filter_map, List.getD_cons_zero, ne_eq, not_false_eq_true, decide_True,
      Bool.not_false, if_true, List.cons_append, List.nil_append]
    congr 2

theorem collectMismatches_zero (ign : List String) (flag : Bool) (xs ys : List Event)
    (h : xs.length = ys.length) :
    collectMismatches ign flag 0 xs ys =
      (mismatchingIndices ign flag xs ys).map
        (fun i => ⟨xs.getD i [], ys.getD i [], i⟩) := by
  induction xs generalizing ys with
  | nil => simp [collectMismatches, mismatchingIndices]
  | cons x xs ih =>
    cases ys with
    | nil => simp at h
    | cons y ys =>
      simp only [List.length_cons, Nat.succ.injEq] at h
      rw [mismatchingIndices_cons]
      simp only [collectMismatches]
      rw [collectMismatches_shift ign flag xs ys 0, ih ys h]
      by_cases hxy : (if flag then filterEvent ign x else x) =
          (if flag then filterEvent ign y else y)
      · simp [hxy, List.map_map, Function.comp, List.getD_cons_succ]
      · simp [hxy, List.map_map, Function.comp, List.getD_cons_succ]

theorem mismatchingIndices_eq_nil_iff (ign : List String) (flag : Bool)
    (events expected : List Event) :
    mismatchingIndices ign flag events expected = [] ↔
      ∀ i, i < events.length →
        (if flag then filterEvent ign (events.getD i []) else events.getD i []) =
        (if flag then filterEvent ign (expected.getD i []) else expected.getD i []) := by
  simp [mismatchingIndices, List.filter_eq_nil_iff, List.mem_range]

theorem compare_eq_none_iff (tc : TestCase) (events : List Event) (flag : Bool)
    (h : events.length = tc.ExpectedEvents.length) :
    tc.Compare events flag = none ↔
      ∀ i, i < events.length →
        (if flag then filterEvent tc.IgnoredFields (events.getD i []) else events.getD i []) =
        (if flag then filterEvent tc.IgnoredFields (tc.ExpectedEvents.getD i [])
          else tc.ExpectedEvents.getD i []) := by
  unfold TestCase.Compare
  rw [if_neg (by simp [h]), collectMismatches_zero _ _ _ _ h,
    ← mismatchingIndices_eq_nil_iff tc.IgnoredFields flag events tc.ExpectedEvents]
  rcases hmi : mismatchingIndices tc.IgnoredFields flag events tc.ExpectedEvents with _ | ⟨m, rest⟩
  · simp
  · simp

theorem compare_eq_some (tc : TestCase) (events : List Event) (flag : Bool)
    (err : ComparisonError)
    (h : events.length = tc.ExpectedEvents.length)
    (hc : tc.Compare events flag = some err) :
    err = ⟨events.length, tc.ExpectedEvents.length,
      (mismatchingIndices tc.IgnoredFields flag events tc.ExpectedEvents).map
        (fun i => ⟨events.getD i [], tc.ExpectedEvents.getD i [], i⟩)⟩ ∧
    mismatchingIndices tc.IgnoredFields flag events tc.ExpectedEvents ≠ [] := by
  unfold TestCase.Compare at hc
  rw [if_neg (by simp [h]), collectMismatches_zero _ _ _ _ h] at hc
  rcases hmi : mismatchingIndices tc.IgnoredFields flag events tc.ExpectedEvents with _ | ⟨m, rest⟩
  · rw [hmi] at hc
    simp at hc
  · rw [hmi] at hc
    simp only [List.map_cons, Option.some.injEq] at hc
    refine ⟨?_, by simp⟩
    rw [← hc]
    simp

theorem compare_of_length_ne (tc : TestCase) (events : List Event) (flag : Bool)
    (h : events.length ≠ tc.ExpectedEvents.length) :
    tc.Compare events flag = some ⟨events.length, tc.ExpectedEvents.length, []⟩ := by
  unfold TestCase.Compare
  rw [if_pos h]

/-! ## Claim theorems about the comparison engine -/

/-- C1: for every test case and actual-event sequence of equal length,
`Compare` with the ignore flag enabled returns no error exactly when no index
mismatches, and otherwise its `Mismatches` holds exactly one
`MismatchedEvent{Actual, Expected, Index}` for every index whose filtered
events are unequal, carrying the unfiltered events at that index. -/
theorem compare_mismatches_exactly_unequal_indices (tc : TestCase) (events : List Event)
    (h : events.length = tc.ExpectedEvents.length) :
    (tc.Compare events true = none ↔
      ∀ i, i < events.length →
        filterEvent tc.IgnoredFields (events.getD i []) =
          filterEvent tc.IgnoredFields (tc.ExpectedEvents.getD i [])) ∧
    (∀ err, tc.Compare events true = some err →
      err.Mismatches =
        (mismatchingIndices tc.IgnoredFields true events tc.ExpectedEvents).map
          (fun i => ⟨events.getD i [], tc.ExpectedEvents.getD i [], i⟩)) := by
  constructor
  · simpa using compare_eq_none_iff tc events true h
  · intro err hc
    rcases compare_eq_some tc events true err h hc with ⟨he, -⟩
    rw [he]

/-- Witness for C1 at the "different fields" vector of `TestCompare`. -/
theorem compare_mismatches_exactly_unequal_indices_witness :
    ([eventCD].length = ({ ExpectedEvents := [eventAB] } : TestCase).ExpectedEvents.length) ∧
    ((TestCase.Compare { ExpectedEvents := [eventAB] } [eventCD] true = none ↔
      ∀ i, i < [eventCD].length →
        filterEvent ({ ExpectedEvents := [eventAB] } : TestCase).IgnoredFields
            ([eventCD].getD i []) =
          filterEvent ({ ExpectedEvents := [eventAB] } : TestCase).IgnoredFields
            (([eventAB] : List Event).getD i [])) ∧
    (∀ err, TestCase.Compare { ExpectedEvents := [eventAB] } [eventCD] true = some err →
      err.Mismatches =
        (mismatchingIndices ({ ExpectedEvents := [eventAB] } : TestCase).IgnoredFields true
            [eventCD] [eventAB]).map
          (fun i => ⟨[eventCD].getD i [], ([eventAB] : List Event).getD i [], i⟩))) :=
  ⟨rfl, compare_mismatches_exactly_unequal_indices { ExpectedEvents := [eventAB] } [eventCD] rfl⟩

/-- C2: whenever the actual count differs from the expected count (in either
direction), `Compare` reports a `ComparisonError` carrying both counts and an
empty `Mismatches` sequence, with no per-event diffing. -/
theorem compare_count_mismatch (tc : TestCase) (events : List Event) (flag : Bool)
    (h : events.length ≠ tc.ExpectedEvents.length) :
    tc.Compare events flag = some ⟨events.length, tc.ExpectedEvents.length, []⟩ :=
  compare_of_length_ne tc events flag h

/-- Witness for C2: too few (1 actual vs 2 expected) and too many
(2 actual vs 1 expected) both yield the count-only diagnostic. -/
theorem compare_count_mismatch_witness :
    (([eventAB].length ≠ ({ ExpectedEvents := [eventAB, eventCD] } : TestCase).ExpectedEvents.length) ∧
      TestCase.Compare { ExpectedEvents := [eventAB, eventCD] } [eventAB] true =
        some ⟨1, 2, []⟩) ∧
    (([eventAB, eventCD].length ≠ ({ ExpectedEvents := [eventAB] } : TestCase).ExpectedEvents.length) ∧
      TestCase.Compare { ExpectedEvents := [eventAB] } [eventAB, eventCD] true =
        some ⟨2, 1, []⟩) :=
  ⟨⟨by decide, compare_count_mismatch { ExpectedEvents := [eventAB, eventCD] } [eventAB] true
      (by decide)⟩,
    ⟨by decide, compare_count_mismatch { ExpectedEvents := [eventAB] } [eventAB, eventCD] true
      (by decide)⟩⟩

/-- C3: a test case with empty `ExpectedEvents` compared against an empty
actual sequence succeeds; more generally, when counts are equal, success is
decided by pairwise-by-index deep structural equality of the filtered
events. -/
theorem compare_empty_success_and_pairwise (tc : TestCase) (events : List Event) :
    (tc.ExpectedEvents = [] → tc.Compare [] true = none) ∧
    (events.length = tc.ExpectedEvents.length →
      (tc.Compare events true = none ↔
        ∀ i, i < events.length →
          filterEvent tc.IgnoredFields (events.getD i []) =
            filterEvent tc.IgnoredFields (tc.ExpectedEvents.getD i []))) := by
  constructor
  · intro he
    have h : ([] : List Event).length = tc.ExpectedEvents.length := by simp [he]
    rw [compare_eq_none_iff tc [] true h]
    intro i hi
    simp at hi
  · intro h
    simpa using compare_eq_none_iff tc events true h

/-- Witness for C3: the empty test case against the empty actual sequence. -/
theorem compare_empty_success_and_pairwise_witness :
    (({} : TestCase).ExpectedEvents = []) ∧
    TestCase.Compare {} [] true = none :=
  ⟨rfl, (compare_empty_success_and_pairwise {} []).1 rfl⟩

/-- C4: with the ignore flag enabled, `filterEvent` removes exactly the fields
named in `IgnoredFields` from both events before equality is decided, and a
test case whose filtered events agree at every index compares with no error —
in particular a field present only in the actual event but listed in
`IgnoredFields` does not cause a mismatch. -/
theorem compare_ignored_fields_removed :
    (∀ (ign : List String) (e : Event) (p : String × JSONValue),
      p ∈ filterEvent ign e ↔ p ∈ e ∧ p.1 ∉ ign) ∧
    (∀ (tc : TestCase) (events : List Event),
      events.length = tc.ExpectedEvents.length →
      (∀ i, i < events.length →
        filterEvent tc.IgnoredFields (events.getD i []) =
          filterEvent tc.IgnoredFields (tc.ExpectedEvents.getD i [])) →
      tc.Compare events true = none) := by
  constructor
  · intro ign e p
    simp [filterEvent, List.mem_filter]
  · intro tc events h hall
    rw [compare_eq_none_iff tc events true h]
    simpa using hall

/-- Witness for C4 at the "ignored fields are ignored" vector of
`TestCompare`: the actual event carries an extra field named in
`IgnoredFields`, and the comparison succeeds. -/
theorem compare_ignored_fields_removed_witness :
    TestCase.Compare
      { IgnoredFields := ["ignored"], ExpectedEvents := [eventNotIgnored] }
      [eventWithIgnored] true = none :=
  compare_ignored_fields_removed.2
    { IgnoredFields := ["ignored"], ExpectedEvents := [eventNotIgnored] }
    [eventWithIgnored] rfl (by decide)

/-- C7: `Compare` is deterministic (two runs on the same inputs agree); every
reported mismatch pairs the actual event at position `Index` with the expected
event at the same position (never a permutation); and the reported indices are
strictly increasing, so neither sequence is re-ordered.  In this pure
embedding `Compare` takes and returns values, so it cannot mutate the
`TestCase` or the actual-events argument. -/
theorem compare_deterministic_positional (tc : TestCase) (events : List Event) (flag : Bool) :
    (tc.Compare events flag = tc.Compare events flag) ∧
    (∀ err, tc.Compare events flag = some err →
      ∀ m ∈ err.Mismatches,
        m.Actual = events.getD m.Index [] ∧
        m.Expected = tc.ExpectedEvents.getD m.Index [] ∧
        m.Index < events.length) ∧
    (∀ err, tc.Compare events flag = some err →
      err.Mismatches.Pairwise (fun m₁ m₂ => m₁.Index < m₂.Index)) := by
  refine ⟨rfl, ?_, ?_⟩
  · intro err hc m hm
    by_cases hlen : events.length = tc.ExpectedEvents.length
    · rcases compare_eq_some tc events flag err hlen hc with ⟨he, -⟩
      rw [he] at hm
      simp only [List.mem_map] at hm
      rcases hm with ⟨i, hi, rfl⟩
      have hilt : i < events.length := by
        unfold mismatchingIndices at hi
        exact List.mem_range.mp (List.mem_of_mem_filter hi)
      exact ⟨rfl, rfl, hilt⟩
    · rw [compare_of_length_ne tc events flag hlen] at hc
      cases hc
      simp at hm
  · intro err hc
    by_cases hlen : events.length = tc.ExpectedEvents.length
    · rcases compare_eq_some tc events flag err hlen hc with ⟨he, -⟩
      rw [he]
      simp only []
      rw [List.pairwise_map]
      unfold mismatchingIndices
      exact (List.pairwise_lt_range _).filter _
    · rw [compare_of_length_ne tc events flag hlen] at hc
      cases hc
      simp

/-- Witness for C7 at the "same field with different values" vector of
`TestCompare`. -/
theorem compare_deterministic_positional_witness :
    (TestCase.Compare { ExpectedEvents := [eventAB] } [eventAUpper] true =
      TestCase.Compare { ExpectedEvents := [eventAB] } [eventAUpper] true) ∧
    (∀ err, TestCase.Compare { ExpectedEvents := [eventAB] } [eventAUpper] true = some err →
      ∀ m ∈ err.Mismatches,
        m.Actual = [eventAUpper].getD m.Index [] ∧
        m.Expected = ({ ExpectedEvents := [eventAB] } : TestCase).ExpectedEvents.getD m.Index [] ∧
        m.Index < [eventAUpper].length) ∧
    (∀ err, TestCase.Compare { ExpectedEvents := [eventAB] } [eventAUpper] true = some err →
      err.Mismatches.Pairwise (fun m₁ m₂ => m₁.Index < m₂.Index)) :=
  compare_deterministic_positional { ExpectedEvents := [eventAB] } [eventAUpper] true

/-- C10: on an equal-length comparison that fails on content, the returned
`ComparisonError` also carries `ActualCount` and `ExpectedCount`, both equal
to the common sequence length. -/
theorem compare_counts_on_content_mismatch (tc : TestCase) (events : List Event)
    (flag : Bool) (err : ComparisonError)
    (h : events.length = tc.ExpectedEvents.length)
    (hc : tc.Compare events flag = some err) :
    err.ActualCount = events.length ∧ err.ExpectedCount = events.length := by
  rcases compare_eq_some tc events flag err h hc with ⟨he, -⟩
  rw [he]
  exact ⟨rfl, h.symm⟩

/-- Witness for C10 at the "same field with different values" vector: the
content mismatch carries counts 1 and 1. -/
theorem compare_counts_on_content_mismatch_witness :
    ([eventAUpper].length = ({ ExpectedEvents := [eventAB] } : TestCase).ExpectedEvents.length) ∧
    (TestCase.Compare { ExpectedEvents := [eventAB] } [eventAUpper] true =
      some ⟨1, 1, [⟨eventAUpper, eventAB, 0⟩]⟩) ∧
    ((⟨1, 1, [⟨eventAUpper, eventAB, 0⟩]⟩ : ComparisonError).ActualCount = [eventAUpper].length ∧
      (⟨1, 1, [⟨eventAUpper, eventAB, 0⟩]⟩ : ComparisonError).ExpectedCount =
        [eventAUpper].length) :=
  ⟨rfl, by decide,
    compare_counts_on_content_mismatch { ExpectedEvents := [eventAB] } [eventAUpper] true
      ⟨1, 1, [⟨eventAUpper, eventAB, 0⟩]⟩ rfl (by decide)⟩

/-! ## Whitespace, digit and string reading lemmas -/

theorem skipWs_ws_append (l₁ l₂ : List Char) (h : ∀ c ∈ l₁, isWsChar c = true) :
    skipWs (l₁ ++ l₂) = skipWs l₂ := by
  induction l₁ with
  | nil => rfl
  | cons c cs ih =>
    simp only [List.cons_append, skipWs, h c (by simp), if_true]
    exact ih (fun c hc => h c (by simp [hc]))

theorem skipWs_not_ws (c : Char) (l : List Char) (h : isWsChar c = false) :
    skipWs (c :: l) = c :: l := by
  simp [skipWs, h]

theorem indentChars_ws (n : Nat) : ∀ c ∈ indentChars n, isWsChar c = true := by
  intro c hc
  rw [indentChars, List.mem_replicate] at hc
  rw [hc.2]
  decide

theorem skipWs_nl_indent (n : Nat) (l : List Char) :
    skipWs ('\n' :: (indentChars n ++ l)) = skipWs l := by
  have : skipWs (('\n' :: indentChars n) ++ l) = skipWs l := by
    apply skipWs_ws_append
    intro c hc
    rcases List.mem_cons.mp hc with rfl | hc
    · decide
    · exact indentChars_ws n c hc
  simpa using this

theorem isDigit_bounds (c : Char) (h : c.isDigit = true) : '0' ≤ c ∧ c ≤ '9' := by
  simpa [Char.isDigit, Bool.and_eq_true, decide_eq_true_eq] using h

theorem isDigit_not_special (c : Char) (h : c.isDigit = true) :
    isWsChar c = false ∧ c ≠ 'n' ∧ c ≠ 't' ∧ c ≠ 'f' ∧ c ≠ '"' ∧ c ≠ '-' ∧ c ≠ '[' ∧
      c ≠ braceL ∧ c ≠ ']' ∧ c ≠ ',' ∧ c ≠ braceR ∧ c ≠ ':' := by
  obtain ⟨h0, h9⟩ := isDigit_bounds c h
  refine ⟨?_, ?_, ?_, ?_, ?_, ?_, ?_, ?_, ?_, ?_, ?_, ?_⟩
  · simp only [isWsChar, Bool.or_eq_false_iff, beq_eq_false_iff_ne, ne_eq]
    refine ⟨⟨⟨?_, ?_⟩, ?_⟩, ?_⟩ <;> rintro rfl <;> revert h0 h9 <;> decide
  all_goals rintro rfl <;> revert h0 h9 <;> decide

theorem digitChar_isDigit (d : Nat) (h : d < 10) : (digitChar d).isDigit = true := by
  interval_cases d <;> decide

theorem charToDigit_digitChar (d : Nat) (h : d < 10) : charToDigit (digitChar d) = d := by
  interval_cases d <;> decide

theorem natToChars_ne_nil (n : Nat) : natToChars n ≠ [] := by
  unfold natToChars
  split
  · simp
  · simp

theorem natToChars_digits (n : Nat) : ∀ c ∈ natToChars n, c.isDigit = true := by
  induction n using Nat.strong_induction_on with
  | _ n ih =>
    unfold natToChars
    split
    · intro c hc
      rcases List.mem_singleton.mp hc with rfl
      exact digitChar_isDigit n (by omega)
    · intro c hc
      rcases List.mem_append.mp hc with hc | hc
      · exact ih (n / 10) (Nat.div_lt_self (by omega) (by omega)) c hc
      · rcases List.mem_singleton.mp hc with rfl
        exact digitChar_isDigit (n % 10) (Nat.mod_lt n (by omega))

theorem foldl_digits_natToChars (n a : Nat) :
    (natToChars n).foldl (fun acc c => 10 * acc + charToDigit c) a =
      a * 10 ^ (natToChars n).length + n := by
  induction n using Nat.strong_induction_on generalizing a with
  | _ n ih =>
    unfold natToChars
    split
    · rename_i h
      simp [List.foldl_cons, charToDigit_digitChar n h]
      ring
    · rename_i h
      rw [List.foldl_append, ih (n / 10) (Nat.div_lt_self (by omega) (by omega)) a]
      simp only [List.foldl_cons, List.foldl_nil, List.length_append, List.length_singleton]
      rw [charToDigit_digitChar (n % 10) (Nat.mod_lt n (by omega))]
      rw [pow_succ]
      have := Nat.div_add_mod n 10
      ring_nf
      omega

theorem digitsToNat_natToChars (n : Nat) : digitsToNat (natToChars n) = n := by
  rw [digitsToNat, foldl_digits_natToChars n 0]
  simp

theorem spanDigits_exact (ds rest : List Char) (hds : ∀ c ∈ ds, c.isDigit = true)
    (hrest : delimOk rest) : spanDigits (ds ++ rest) = (ds, rest) := by
  induction ds with
  | nil =>
    cases rest with
    | nil => rfl
    | cons c cs =>
      simp only [List.nil_append, spanDigits, hrest c cs rfl, Bool.false_eq_true, if_false]
  | cons c ds ih =>
    have ih' := ih (fun c hc => hds c (by simp [hc]))
    simp [spanDigits, hds c (by simp), List.append_eq, ih']

theorem parseStrChars_escape (l rest : List Char) :
    parseStrChars (escapeStr l ++ ('"' :: rest)) = some (l, rest) := by
  induction l with
  | nil => rfl
  | cons c cs ih =>
    by_cases hc : c = '"' ∨ c = '\\'
    · simp only [escapeStr, escapeChar, hc, if_true, List.cons_append, List.append_assoc,
        List.nil_append]
      rw [show parseStrChars ('\\' :: c :: (escapeStr cs ++ '"' :: rest)) =
          (match parseStrChars (escapeStr cs ++ '"' :: rest) with
           | some (chars, r) => some (c :: chars, r)
           | none => none) from rfl, ih]
    · simp only [escapeStr, escapeChar, hc, if_false, List.cons_append, List.nil_append]
      have h1 : c ≠ '"' := fun h => hc (Or.inl h)
      have h2 : c ≠ '\\' := fun h => hc (Or.inr h)
      simp [parseStrChars, h1, h2, ih]

theorem parseStringBody_render (s : String) (rest : List Char) :
    parseStringBody (escapeStr s.data ++ ('"' :: rest)) = some (s, rest) := by
  rw [parseStringBody, parseStrChars_escape]

theorem sizeV_pos (v : JSONValue) : 1 ≤ sizeV v := by
  cases v <;> simp [sizeV]

theorem intToChars_length_pos (n : Int) : 1 ≤ (intToChars n).length := by
  rw [intToChars]
  split
  · simp
  · exact List.length_pos.mpr (natToChars_ne_nil n.natAbs)

theorem render_length_ge (fuel : Nat) :
    (∀ v ind, sizeV v ≤ fuel → sizeV v ≤ (renderVal ind v).length) ∧
    (∀ xs ind, sizeVList xs ≤ fuel → sizeVList xs ≤ (renderItems ind xs).length) ∧
    (∀ fs ind, sizeVFields fs ≤ fuel → sizeVFields fs ≤ (renderFieldsRest ind fs).length) := by
  induction fuel with
  | zero =>
    refine ⟨?_, ?_, ?_⟩
    · intro v ind hv
      exact absurd (le_trans (sizeV_pos v) hv) (by omega)
    · intro xs ind hxs
      omega
    · intro fs ind hfs
      omega
  | succ fuel ih =>
    obtain ⟨ihV, ihL, ihF⟩ := ih
    refine ⟨?_, ?_, ?_⟩
    · intro v ind hv
      cases v with
      | null => simp [sizeV, renderVal]
      | bool b => cases b <;> simp [sizeV, renderVal]
      | num n =>
        simp only [sizeV, renderVal]
        exact intToChars_length_pos n
      | str s => simp [sizeV, renderVal, renderString]
      | arr xs =>
        cases xs with
        | nil => simp [sizeV, sizeVList, renderVal]
        | cons x xs =>
          have h1 : sizeV x ≤ fuel := by simp [sizeV, sizeVList] at hv ⊢; omega
          have h2 : sizeVList xs ≤ fuel := by simp [sizeV, sizeVList] at hv ⊢; omega
          have e1 := ihV x (ind + 1) h1
          have e2 := ihL xs ind h2
          simp only [sizeV, sizeVList, renderVal, List.length_cons, List.length_append,
            indentChars, List.length_replicate, List.length_singleton] at *
          omega
      | obj fs =>
        cases fs with
        | nil => simp [sizeV, sizeVFields, renderVal]
        | cons f fs =>
          have h1 : sizeV f.2 ≤ fuel := by simp [sizeV, sizeVFields] at hv ⊢; omega
          have h2 : sizeVFields fs ≤ fuel := by simp [sizeV, sizeVFields] at hv ⊢; omega
          have e1 := ihV f.2 (ind + 1) h1
          have e2 := ihF fs ind h2
          simp only [sizeV, sizeVFields, renderVal, renderField, List.length_cons,
            List.length_append, indentChars, List.length_replicate, List.length_singleton] at *
          omega
    · intro xs ind hxs
      cases xs with
      | nil => simp [sizeVList, renderItems]
      | cons x xs =>
        have h1 : sizeV x ≤ fuel := by simp [sizeVList] at hxs ⊢; omega
        have h2 : sizeVList xs ≤ fuel := by simp [sizeVList] at hxs ⊢; omega
        have e1 := ihV x (ind + 1) h1
        have e2 := ihL xs ind h2
        simp only [sizeVList, renderItems, List.length_cons, List.length_append,
          indentChars, List.length_replicate] at *
        omega
    · intro fs ind hfs
      cases fs with
      | nil => simp [sizeVFields, renderFieldsRest]
      | cons f fs =>
        have h1 : sizeV f.2 ≤ fuel := by simp [sizeVFields] at hfs ⊢; omega
        have h2 : sizeVFields fs ≤ fuel := by simp [sizeVFields] at hfs ⊢; omega
        have e1 := ihV f.2 (ind + 1) h1
        have e2 := ihF fs ind h2
        simp only [sizeVFields, renderFieldsRest, renderField, List.length_cons,
          List.length_append, indentChars, List.length_replicate] at *
        omega

theorem parseVal_skip_leading_ws (fuel : Nat) (l₁ l₂ : List Char)
    (h : ∀ c ∈ l₁, isWsChar c = true) :
    parseVal fuel (l₁ ++ l₂) = parseVal fuel l₂ := by
  cases fuel with
  | zero => rfl
  | succ fuel =>
    simp only [parseVal]
    rw [skipWs_ws_append l₁ l₂ h]

theorem parseField_skip_leading_ws (fuel : Nat) (l₁ l₂ : List Char)
    (h : ∀ c ∈ l₁, isWsChar c = true) :
    parseField fuel (l₁ ++ l₂) = parseField fuel l₂ := by
  cases fuel with
  | zero => rfl
  | succ fuel =>
    simp only [parseField]
    rw [skipWs_ws_append l₁ l₂ h]

theorem intToChars_head (n : Int) :
    ∃ c cs, intToChars n = c :: cs ∧ isWsChar c = false ∧ c ≠ ']' := by
  rw [intToChars]
  split
  · exact ⟨'-', natToChars n.natAbs, rfl, by decide, by decide⟩
  · cases hn : natToChars n.natAbs with
    | nil => exact absurd hn (natToChars_ne_nil _)
    | cons c cs =>
      have hd : c.isDigit = true := natToChars_digits n.natAbs c (by rw [hn]; simp)
      obtain ⟨hws, -, -, -, -, -, -, -, hne, -⟩ := isDigit_not_special c hd
      exact ⟨c, cs, rfl, hws, hne⟩

theorem renderVal_head (ind : Nat) (v : JSONValue) :
    ∃ c cs, renderVal ind v = c :: cs ∧ isWsChar c = false ∧ c ≠ ']' := by
  cases v with
  | null => exact ⟨'n', _, rfl, by decide, by decide⟩
  | bool b =>
    cases b with
    | true => exact ⟨'t', _, rfl, by decide, by decide⟩
    | false => exact ⟨'f', _, rfl, by decide, by decide⟩
  | num n =>
    obtain ⟨c, cs, he, hws, hne⟩ := intToChars_head n
    exact ⟨c, cs, by rw [renderVal, he], hws, hne⟩
  | str s => exact ⟨'"', _, rfl, by decide, by decide⟩
  | arr xs =>
    cases xs with
    | nil => exact ⟨'[', _, rfl, by decide, by decide⟩
    | cons x xs => exact ⟨'[', _, rfl, by decide, by decide⟩
  | obj fs =>
    cases fs with
    | nil => exact ⟨braceL, _, rfl, by decide, by decide⟩
    | cons f fs => exact ⟨braceL, _, rfl, by decide, by decide⟩

theorem delimOk_cons (c : Char) (l : List Char) (h : c.isDigit = false) :
    delimOk (c :: l) := by
  intro c' cs' he
  cases he
  exact h

theorem delimOk_renderItems_tail (ind : Nat) (xs : List JSONValue) (l : List Char) :
    delimOk (renderItems ind xs ++ ('\n' :: l)) := by
  cases xs with
  | nil =>
    simp only [renderItems, List.nil_append]
    exact delimOk_cons _ _ (by decide)
  | cons x xs =>
    simp only [renderItems, List.cons_append]
    exact delimOk_cons _ _ (by decide)

theorem delimOk_renderFieldsRest_tail (ind : Nat) (fs : List (String × JSONValue))
    (l : List Char) :
    delimOk (renderFieldsRest ind fs ++ ('\n' :: l)) := by
  cases fs with
  | nil =>
    simp only [renderFieldsRest, List.nil_append]
    exact delimOk_cons _ _ (by decide)
  | cons f fs =>
    simp only [renderFieldsRest, List.cons_append]
    exact delimOk_cons _ _ (by decide)

theorem parseVal_lbkt (fuel : Nat) (cs : List Char) :
    parseVal (fuel + 1) ('[' :: cs) =
      (match skipWs cs with
       | ']' :: rest => some (.arr [], rest)
       | cs' =>
         match parseVal fuel cs' with
         | some (v, rest) =>
           match parseArrRest fuel rest with
           | some (vs, rest') => some (.arr (v :: vs), rest')
           | none => none
         | none => none) := rfl

theorem parseVal_lbrc (fuel : Nat) (cs : List Char) :
    parseVal (fuel + 1) (braceL :: cs) =
      (match skipWs cs with
       | [] => none
       | c' :: rest =>
         if c' = braceR then some (.obj [], rest)
         else
           match parseField fuel (c' :: rest) with
           | some (kv, rest₁) =>
             match parseObjRest fuel rest₁ with
             | some (kvs, rest₂) => some (.obj (kv :: kvs), rest₂)
             | none => none
           | none => none) := rfl

theorem parseVal_head (fuel : Nat) (c : Char) (l : List Char) (hws : isWsChar c = false) :
    parseVal (fuel + 1) (c :: l) =
      (if c = 'n' then
        match l with
        | 'u' :: 'l' :: 'l' :: rest => some (JSONValue.null, rest)
        | _ => none
      else
        if c = 't' then
          match l with
          | 'r' :: 'u' :: 'e' :: rest => some (JSONValue.bool true, rest)
          | _ => none
        else
          if c = 'f' then
            match l with
            | 'a' :: 'l' :: 's' :: 'e' :: rest => some (JSONValue.bool false, rest)
            | _ => none
          else
            if c = '"' then
              match parseStringBody l with
              | some (s, rest) => some (JSONValue.str s, rest)
              | none => none
            else
              if c = '-' then
                match spanDigits l with
                | ([], _) => none
                | (ds, rest) => some (JSONValue.num (-(digitsToNat ds : Int)), rest)
              else
                if c.isDigit = true then
                  some (JSONValue.num (digitsToNat (spanDigits (c :: l)).1 : Int),
                    (spanDigits (c :: l)).2)
                else
                  if c = '[' then
                    match skipWs l with
                    | ']' :: rest => some (JSONValue.arr [], rest)
                    | cs' =>
                      match parseVal fuel cs' with
                      | some (v, rest) =>
                        match parseArrRest fuel rest with
                        | some (vs, rest') => some (JSONValue.arr (v :: vs), rest')
                        | none => none
                      | none => none
                  else
                    if c = braceL then
                      match skipWs l with
                      | [] => none
                      | c' :: rest =>
                        if c' = braceR then some (JSONValue.obj [], rest)
                        else
                          match parseField fuel (c' :: rest) with
                          | some (kv, rest₁) =>
                            match parseObjRest fuel rest₁ with
                            | some (kvs, rest₂) => some (JSONValue.obj (kv :: kvs), rest₂)
                            | none => none
                          | none => none
                    else none) := by
  simp only [parseVal]
  rw [skipWs_not_ws _ _ hws]

theorem parse_render (fuel : Nat) :
    (∀ v ind rest, sizeV v ≤ fuel → delimOk rest →
      parseVal fuel (renderVal ind v ++ rest) = some (v, rest)) ∧
    (∀ xs ind rest, sizeVList xs + 1 ≤ fuel →
      parseArrRest fuel (renderItems ind xs ++ ('\n' :: (indentChars ind ++ (']' :: rest)))) =
        some (xs, rest)) ∧
    (∀ fs ind rest, sizeVFields fs + 1 ≤ fuel →
      parseObjRest fuel
          (renderFieldsRest ind fs ++ ('\n' :: (indentChars ind ++ (braceR :: rest)))) =
        some (fs, rest)) ∧
    (∀ (kv : String × JSONValue) ind rest, sizeV kv.2 + 1 ≤ fuel → delimOk rest →
      parseField fuel (renderField ind kv ++ rest) = some (kv, rest)) := by
  induction fuel with
  | zero =>
    refine ⟨?_, ?_, ?_, ?_⟩
    · intro v ind rest hv _
      exact absurd (le_trans (sizeV_pos v) hv) (by omega)
    · intro xs ind rest h
      omega
    · intro fs ind rest h
      omega
    · intro kv ind rest h _
      omega
  | succ fuel ih =>
    obtain ⟨ihV, ihA, ihO, ihF⟩ := ih
    refine ⟨?_, ?_, ?_, ?_⟩
    · intro v ind rest hv hrest
      cases v with
      | null => rfl
      | bool b => cases b <;> rfl
      | num n =>
        rw [show renderVal ind (.num n) = intToChars n from rfl, intToChars]
        split
        · rename_i hneg
          show (match spanDigits (natToChars n.natAbs ++ rest) with
                | ([], _) => none
                | (ds, r) => some (JSONValue.num (-(digitsToNat ds : Int)), r)) =
              some (JSONValue.num n, rest)
          rw [spanDigits_exact _ _ (natToChars_digits _) hrest]
          cases hn : natToChars n.natAbs with
          | nil => exact absurd hn (natToChars_ne_nil _)
          | cons c ds =>
            have hval : (n.natAbs : Int) = -n := by omega
            simp [← hn, digitsToNat_natToChars, hval]
        · rename_i hpos
          cases hn : natToChars n.natAbs with
          | nil => exact absurd hn (natToChars_ne_nil _)
          | cons c ds =>
            have hcd : c.isDigit = true := natToChars_digits n.natAbs c (by rw [hn]; simp)
            obtain ⟨hws, hcn, hct, hcf, hcq, hcm, hclb, hcbl, -, -, -, -⟩ :=
              isDigit_not_special c hcd
            rw [List.cons_append, parseVal_head fuel c (ds ++ rest) hws]
            rw [if_neg hcn, if_neg hct, if_neg hcf, if_neg hcq, if_neg hcm, if_pos hcd]
            have hspan : spanDigits (c :: (ds ++ rest)) = (c :: ds, rest) := by
              rw [show c :: (ds ++ rest) = (c :: ds) ++ rest from rfl]
              rw [spanDigits_exact _ _ (hn ▸ natToChars_digits n.natAbs) hrest]
            rw [hspan]
            have hval : (n.natAbs : Int) = n := by omega
            simp [← hn, digitsToNat_natToChars, hval]
      | str s =>
        show (match parseStringBody ((escapeStr s.data ++ ['"']) ++ rest) with
              | some (s', r) => some (JSONValue.str s', r)
              | none => none) = some (JSONValue.str s, rest)
        rw [List.append_assoc, List.singleton_append, parseStringBody_render]
      | arr elems =>
        cases elems with
        | nil => rfl
        | cons x xs =>
          have hx : sizeV x ≤ fuel := by
            simp [sizeV, sizeVList] at hv
            omega
          have hxs : sizeVList xs + 1 ≤ fuel := by
            simp [sizeV, sizeVList] at hv
            omega
          rw [show renderVal ind (.arr (x :: xs)) =
            '[' :: '\n' :: (indentChars (ind + 1) ++ renderVal (ind + 1) x ++
              renderItems ind xs ++ ('\n' :: (indentChars ind ++ [']']))) from rfl]
          simp only [List.cons_append, List.append_assoc, List.singleton_append, List.nil_append]
          rw [parseVal_lbkt, skipWs_nl_indent]
          obtain ⟨c, cs₀, hxe, hcws, hcne⟩ := renderVal_head (ind + 1) x
          rw [hxe, List.cons_append, skipWs_not_ws _ _ hcws]
          have hrec : parseVal fuel
              (c :: (cs₀ ++ (renderItems ind xs ++ ('\n' :: (indentChars ind ++ (']' :: rest)))))) =
              some (x, renderItems ind xs ++ ('\n' :: (indentChars ind ++ (']' :: rest)))) := by
            rw [show c :: (cs₀ ++ (renderItems ind xs ++ ('\n' :: (indentChars ind ++ (']' :: rest))))) =
              (c :: cs₀) ++ (renderItems ind xs ++ ('\n' :: (indentChars ind ++ (']' :: rest)))) from rfl]
            rw [← hxe]
            exact ihV x (ind + 1) _ hx (delimOk_renderItems_tail ind xs _)
          split
          · rename_i heq
            rw [List.cons.injEq] at heq
            exact absurd heq.1 hcne
          · simp only [hrec, ihA xs ind rest hxs]
      | obj fields =>
        cases fields with
        | nil => rfl
        | cons f fs =>
          have hf : sizeV f.2 + 1 ≤ fuel := by
            simp [sizeV, sizeVFields] at hv
            omega
          have hfs : sizeVFields fs + 1 ≤ fuel := by
            simp [sizeV, sizeVFields] at hv
            omega
          rw [show renderVal ind (.obj (f :: fs)) =
            braceL :: '\n' :: (indentChars (ind + 1) ++ renderField (ind + 1) f ++
              renderFieldsRest ind fs ++ ('\n' :: (indentChars ind ++ [braceR]))) from rfl]
          simp only [List.cons_append, List.append_assoc, List.singleton_append, List.nil_append]
          rw [parseVal_lbrc, skipWs_nl_indent]
          have hfe : renderField (ind + 1) f =
              '"' :: (escapeStr f.1.data ++ ['"'] ++ (':' :: ' ' :: renderVal (ind + 1) f.2)) := by
            simp [renderField, renderString]
          rw [hfe, List.cons_append, skipWs_not_ws _ _ (by decide)]
          have hrec : parseField fuel
              ('"' :: (escapeStr f.1.data ++ ['"'] ++ (':' :: ' ' :: renderVal (ind + 1) f.2) ++
                (renderFieldsRest ind fs ++ ('\n' :: (indentChars ind ++ (braceR :: rest)))))) =
              some (f, renderFieldsRest ind fs ++ ('\n' :: (indentChars ind ++ (braceR :: rest)))) := by
            rw [show '"' :: (escapeStr f.1.data ++ ['"'] ++ (':' :: ' ' :: renderVal (ind + 1) f.2) ++
                (renderFieldsRest ind fs ++ ('\n' :: (indentChars ind ++ (braceR :: rest))))) =
              renderField (ind + 1) f ++
                (renderFieldsRest ind fs ++ ('\n' :: (indentChars ind ++ (braceR :: rest)))) from by
              rw [hfe]
              simp [List.append_assoc]]
            exact ihF f (ind + 1) _ hf (delimOk_renderFieldsRest_tail ind fs _)
          show (match parseField fuel
              ('"' :: (escapeStr f.1.data ++ ['"'] ++ (':' :: ' ' :: renderVal (ind + 1) f.2) ++
                (renderFieldsRest ind fs ++ ('\n' :: (indentChars ind ++ (braceR :: rest)))))) with
            | some (kv, rest₁) =>
              match parseObjRest fuel rest₁ with
              | some (kvs, rest₂) => some (JSONValue.obj (kv :: kvs), rest₂)
              | none => none
            | none => none) = some (JSONValue.obj (f :: fs), rest)
          simp only [hrec, ihO fs ind rest hfs]
    · intro xs ind rest h
      cases xs with
      | nil =>
        simp only [renderItems, List.nil_append, parseArrRest]
        rw [skipWs_nl_indent, skipWs_not_ws _ _ (by decide)]
        rfl
      | cons x xs =>
        have hx : sizeV x ≤ fuel := by
          simp [sizeVList] at h
          omega
        have hxs : sizeVList xs + 1 ≤ fuel := by
          simp [sizeVList] at h
          omega
        rw [show renderItems ind (x :: xs) =
          ',' :: '\n' :: (indentChars (ind + 1) ++ renderVal (ind + 1) x ++ renderItems ind xs)
          from rfl]
        simp only [List.cons_append, List.append_assoc]
        simp only [parseArrRest]
        rw [skipWs_not_ws _ _ (by decide)]
        have hrec : parseVal fuel
            ('\n' :: (indentChars (ind + 1) ++ (renderVal (ind + 1) x ++
              (renderItems ind xs ++ ('\n' :: (indentChars ind ++ (']' :: rest))))))) =
            some (x, renderItems ind xs ++ ('\n' :: (indentChars ind ++ (']' :: rest)))) := by
          rw [show '\n' :: (indentChars (ind + 1) ++ (renderVal (ind + 1) x ++
              (renderItems ind xs ++ ('\n' :: (indentChars ind ++ (']' :: rest)))))) =
            ('\n' :: indentChars (ind + 1)) ++ (renderVal (ind + 1) x ++
              (renderItems ind xs ++ ('\n' :: (indentChars ind ++ (']' :: rest))))) from rfl]
          rw [parseVal_skip_leading_ws fuel _ _ (by
            intro c hc
            rcases List.mem_cons.mp hc with rfl | hc
            · decide
            · exact indentChars_ws _ c hc)]
          exact ihV x (ind + 1) _ hx (delimOk_renderItems_tail ind xs _)
        simp only [hrec, ihA xs ind rest hxs]
    · intro fs ind rest h
      cases fs with
      | nil =>
        simp only [renderFieldsRest, List.nil_append, parseObjRest]
        rw [skipWs_nl_indent, skipWs_not_ws _ _ (by decide)]
        rfl
      | cons f fs =>
        have hf : sizeV f.2 + 1 ≤ fuel := by
          simp [sizeVFields] at h
          omega
        have hfs : sizeVFields fs + 1 ≤ fuel := by
          simp [sizeVFields] at h
          omega
        rw [show renderFieldsRest ind (f :: fs) =
          ',' :: '\n' :: (indentChars (ind + 1) ++ renderField (ind + 1) f ++ renderFieldsRest ind fs)
          from rfl]
        simp only [List.cons_append, List.append_assoc]
        simp only [parseObjRest]
        rw [skipWs_not_ws _ _ (by decide)]
        have hrec : parseField fuel
            ('\n' :: (indentChars (ind + 1) ++ (renderField (ind + 1) f ++
              (renderFieldsRest ind fs ++ ('\n' :: (indentChars ind ++ (braceR :: rest))))))) =
            some (f, renderFieldsRest ind fs ++ ('\n' :: (indentChars ind ++ (braceR :: rest)))) := by
          rw [show '\n' :: (indentChars (ind + 1) ++ (renderField (ind + 1) f ++
              (renderFieldsRest ind fs ++ ('\n' :: (indentChars ind ++ (braceR :: rest)))))) =
            ('\n' :: indentChars (ind + 1)) ++ (renderField (ind + 1) f ++
              (renderFieldsRest ind fs ++ ('\n' :: (indentChars ind ++ (braceR :: rest))))) from rfl]
          rw [parseField_skip_leading_ws fuel _ _ (by
            intro c hc
            rcases List.mem_cons.mp hc with rfl | hc
            · decide
            · exact indentChars_ws _ c hc)]
          exact ihF f (ind + 1) _ hf (delimOk_renderFieldsRest_tail ind fs _)
        simp only [hrec, ihO fs ind rest hfs]
    · intro kv ind rest h hrest
      obtain ⟨k, v⟩ := kv
      have hv : sizeV v ≤ fuel := by
        simp at h
        omega
      rw [show renderField ind (k, v) ++ rest =
        '"' :: ((escapeStr k.data ++ ['"']) ++ ((':' :: ' ' :: renderVal ind v) ++ rest)) from by
        simp [renderField, renderString, List.append_assoc]]
      simp only [parseField]
      rw [skipWs_not_ws _ _ (by decide)]
      rw [show ((escapeStr k.data ++ ['"']) ++ ((':' :: ' ' :: renderVal ind v) ++ rest)) =
        escapeStr k.data ++ ('"' :: ((':' :: ' ' :: renderVal ind v) ++ rest)) from by
        simp [List.append_assoc]]
      have hskip : skipWs ((':' :: ' ' :: renderVal ind v) ++ rest) =
          ':' :: (' ' :: (renderVal ind v ++ rest)) := by
        simp only [List.cons_append]
        exact skipWs_not_ws _ _ (by decide)
      have hpv : parseVal fuel (' ' :: (renderVal ind v ++ rest)) =
          parseVal fuel (renderVal ind v ++ rest) := by
        rw [show (' ' :: (renderVal ind v ++ rest)) = [' '] ++ (renderVal ind v ++ rest) from rfl]
        exact parseVal_skip_leading_ws fuel _ _ (by intro c hc; simp at hc; rw [hc]; decide)
      simp only [parseStringBody_render, hskip, hpv, ihV v ind rest hv hrest]

/-! ## Top-level serialization round trip -/

theorem delimOk_nil : delimOk [] := by
  intro c cs h
  cases h

theorem delimOk_newline : delimOk ['\n'] := by
  intro c cs h
  cases h
  decide

theorem sizeV_le_render_length (v : JSONValue) (ind : Nat) :
    sizeV v ≤ (renderVal ind v).length :=
  (render_length_ge (sizeV v)).1 v ind le_rfl

theorem unmarshal_marshal (e : Event) :
    unmarshalEvent (marshalContent e) = some e := by
  have hdata : (marshalContent e).data = renderVal 0 (.obj e) ++ ['\n'] := rfl
  have hsize : sizeV (.obj e) ≤ (renderVal 0 (.obj e) ++ ['\n']).length + 1 := by
    have h1 := sizeV_le_render_length (.obj e) 0
    simp only [List.length_append, List.length_singleton]
    omega
  have hparse := (parse_render ((renderVal 0 (.obj e) ++ ['\n']).length + 1)).1
    (.obj e) 0 ['\n'] hsize delimOk_newline
  rw [unmarshalEvent, parseJSON, hdata, hparse]
  rfl

theorem marshalContent_last_newline (e : Event) :
    (marshalContent e).data.getLast? = some '\n' := by
  have hdata : (marshalContent e).data = renderVal 0 (.obj e) ++ ['\n'] := rfl
  rw [hdata]
  simp

/-- C9: `marshalToFile` creates the missing parent directories of the
destination, writes the indented JSON serialization of the event followed by
a trailing newline — bytes that parse back to an event equal to the one
serialized — and fails with an `IOError` exactly when directory creation or
the write fails. -/
theorem marshalToFile_spec :
    (∀ (fs : FileSystem) (event : Event) (path : List String),
      (∀ p ∈ parentPaths path, ∀ c, (p, c) ∉ fs.files) →
      path ∉ fs.dirs →
      ∃ fs', marshalToFile fs event path = .ok fs' ∧
        (path, marshalContent event) ∈ fs'.files ∧
        (∀ p ∈ parentPaths path, p ∈ fs'.dirs) ∧
        (marshalContent event).data.getLast? = some '\n' ∧
        unmarshalEvent (marshalContent event) = some event) ∧
    (∀ (fs : FileSystem) (event : Event) (path : List String),
      (∃ msg, marshalToFile fs event path = .error (.IOError msg)) ↔
        ((∃ p ∈ parentPaths path, ∃ c, (p, c) ∈ fs.files) ∨ path ∈ fs.dirs)) := by
  constructor
  · intro fs event path hpar hdir
    have hc1 : ((parentPaths path).any (fun p => fs.files.any (fun f => decide (f.1 = p)))) = false := by
      rw [List.any_eq_false]
      intro p hp
      rw [Bool.not_eq_true, List.any_eq_false]
      intro f hf
      simp only [decide_eq_true_eq]
      intro he
      exact hpar p hp f.2 (by rw [← he]; simpa using hf)
    have hc2 : (fs.dirs.any (fun d => decide (d = path))) = false := by
      rw [List.any_eq_false]
      intro d hd
      simp only [decide_eq_true_eq]
      intro he
      exact hdir (he ▸ hd)
    refine ⟨⟨fs.dirs ++ (parentPaths path).filter (fun p => !(fs.dirs.any (fun d => decide (d = p)))),
        (path, marshalContent event) :: fs.files.filter (fun f => !(decide (f.1 = path)))⟩,
      ?_, ?_, ?_, marshalContent_last_newline event, unmarshal_marshal event⟩
    · rw [marshalToFile, if_neg (by simp [hc1]), if_neg (by simp [hc2])]
    · simp
    · intro p hp
      simp only [List.mem_append, List.mem_filter]
      by_cases hmem : p ∈ fs.dirs
      · exact Or.inl hmem
      · refine Or.inr ⟨hp, ?_⟩
        simp only [Bool.not_eq_true']
        rw [List.any_eq_false]
        intro d hd
        simp only [decide_eq_true_eq]
        intro he
        exact hmem (he ▸ hd)
  · intro fs event path
    constructor
    · rintro ⟨msg, hm⟩
      rw [marshalToFile] at hm
      by_cases hc1 : ((parentPaths path).any (fun p => fs.files.any (fun f => decide (f.1 = p)))) = true
      · rw [List.any_eq_true] at hc1
        obtain ⟨p, hp, hpf⟩ := hc1
        rw [List.any_eq_true] at hpf
        obtain ⟨f, hf, hfe⟩ := hpf
        simp only [decide_eq_true_eq] at hfe
        exact Or.inl ⟨p, hp, f.2, by rw [← hfe]; simpa using hf⟩
      · rw [if_neg (by simpa using hc1)] at hm
        by_cases hc2 : (fs.dirs.any (fun d => decide (d = path))) = true
        · rw [List.any_eq_true] at hc2
          obtain ⟨d, hd, hde⟩ := hc2
          simp only [decide_eq_true_eq] at hde
          exact Or.inr (hde ▸ hd)
        · rw [if_neg (by simpa using hc2)] at hm
          cases hm
    · intro h
      rw [marshalToFile]
      by_cases hc1 : ((parentPaths path).any (fun p => fs.files.any (fun f => decide (f.1 = p)))) = true
      · rw [if_pos (by simpa using hc1)]
        exact ⟨_, rfl⟩
      · rcases h with ⟨p, hp, c, hc⟩ | hd
        · exact absurd (by
            rw [List.any_eq_true]
            exact ⟨p, hp, by
              rw [List.any_eq_true]
              exact ⟨(p, c), hc, by simp⟩⟩) hc1
        · rw [if_neg (by simpa using hc1), if_pos (by
            rw [List.any_eq_true]
            exact ⟨path, hd, by simp⟩)]
          exact ⟨_, rfl⟩

/-- Witness for C9 at the `TestMarshalToFile` vector: the empty event written
to `tmp/a/b/c.json` on an empty filesystem succeeds, creating the parents. -/
theorem marshalToFile_spec_witness :
    (∀ p ∈ parentPaths ["tmp", "a", "b", "c.json"], ∀ c,
      (p, c) ∉ (⟨[], []⟩ : FileSystem).files) ∧
    (["tmp", "a", "b", "c.json"] ∉ (⟨[], []⟩ : FileSystem).dirs) ∧
    (∃ fs', marshalToFile ⟨[], []⟩ ([] : Event) ["tmp", "a", "b", "c.json"] = .ok fs' ∧
      (["tmp", "a", "b", "c.json"], marshalContent []) ∈ fs'.files ∧
      (∀ p ∈ parentPaths ["tmp", "a", "b", "c.json"], p ∈ fs'.dirs) ∧
      (marshalContent ([] : Event)).data.getLast? = some '\n' ∧
      unmarshalEvent (marshalContent ([] : Event)) = some ([] : Event)) :=
  ⟨fun p _ c h => by simp at h, by simp,
    marshalToFile_spec.1 ⟨[], []⟩ [] ["tmp", "a", "b", "c.json"]
      (fun p _ c h => by simp at h) (by simp)⟩

/-! ## Loader claims -/

theorem isAbsPath_append (s t : String) (h : isAbsPath s = true) :
    isAbsPath (s ++ t) = true := by
  unfold isAbsPath at h ⊢
  rw [String.data_append]
  cases hs : s.data with
  | nil =>
    rw [hs] at h
    simp at h
  | cons c l =>
    rw [hs] at h
    rw [List.cons_append]
    simpa using h

/-- The document a structurally valid JSON value deserializes to carries
exactly the members extracted from that object: in particular its `codec` and
`ignore` fields are the object's supplied "codec" and "ignore" members. -/
theorem docOfValue_obj_members (v : JSONValue) (doc : TestCaseDocument)
    (hd : docOfValue v = Except.ok doc) :
    ∃ fs, v = JSONValue.obj fs ∧
      getOptField asString fs "type" = Except.ok doc.typ ∧
      getOptField asString fs "codec" = Except.ok doc.codec ∧
      getOptField asStringList fs "ignore" = Except.ok doc.ignore ∧
      getOptField asStringList fs "input" = Except.ok doc.input ∧
      getOptField asEventList fs "expected" = Except.ok doc.expected := by
  cases v with
  | null => exact Except.noConfusion hd
  | bool b => exact Except.noConfusion hd
  | num n => exact Except.noConfusion hd
  | str s => exact Except.noConfusion hd
  | arr xs => exact Except.noConfusion hd
  | obj fs =>
    unfold docOfValue at hd
    cases h1 : getOptField asString fs "type" with
    | error m =>
      simp only [h1] at hd
      exact Except.noConfusion hd
    | ok typ =>
      simp only [h1] at hd
      cases h2 : getOptField asString fs "codec" with
      | error m =>
        simp only [h2] at hd
        exact Except.noConfusion hd
      | ok codec =>
        simp only [h2] at hd
        cases h3 : getOptField asStringList fs "ignore" with
        | error m =>
          simp only [h3] at hd
          exact Except.noConfusion hd
        | ok ignore =>
          simp only [h3] at hd
          cases h4 : getOptField asStringList fs "input" with
          | error m =>
            simp only [h4] at hd
            exact Except.noConfusion hd
          | ok input =>
            simp only [h4] at hd
            cases h5 : getOptField asEventList fs "expected" with
            | error m =>
              simp only [h5] at hd
              exact Except.noConfusion hd
            | ok expected =>
              simp only [h5, Except.ok.injEq] at hd
              refine ⟨fs, rfl, ?_, ?_, ?_, ?_, ?_⟩ <;> rw [← hd]
              · exact h1
              · exact h2
              · exact h3
              · exact h4
              · exact h5

/-- C5: every test case accepted by the loader is the defaulting of the
document parsed from the supplied input: the loader's output factors through
`parseJSON` and `docOfValue` of that very input, the document's `codec` and
`ignore` fields are the object's supplied members, `Codec` is "plain" when
the supplied codec is absent or empty and the supplied value otherwise, and
`IgnoredFields` is the baseline "@version" followed by the user-declared
ignore entries in their given order. -/
theorem new_codec_default_and_ignore_baseline (s : String) (tc : TestCase)
    (h : New s = Except.ok tc) :
    ∃ (v : JSONValue) (doc : TestCaseDocument),
      parseJSON s = some v ∧ docOfValue v = Except.ok doc ∧
      tc = fromDocument doc ∧
      (∃ fs, v = JSONValue.obj fs ∧
        getOptField asString fs "codec" = Except.ok doc.codec ∧
        getOptField asStringList fs "ignore" = Except.ok doc.ignore) ∧
      tc.Codec = (if doc.codec.getD "" = "" then "plain" else doc.codec.getD "") ∧
      tc.IgnoredFields = "@version" :: doc.ignore.getD [] := by
  unfold New at h
  cases hp : parseJSON s with
  | none =>
    simp only [hp] at h
    exact Except.noConfusion h
  | some v =>
    simp only [hp] at h
    cases hd : docOfValue v with
    | error msg =>
      simp only [hd] at h
      exact Except.noConfusion h
    | ok doc =>
      simp only [hd, Except.ok.injEq] at h
      obtain ⟨fs, hfs, -, hcodec, hignore, -, -⟩ := docOfValue_obj_members v doc hd
      refine ⟨v, doc, rfl, hd, h.symm, ⟨fs, hfs, hcodec, hignore⟩, ?_, ?_⟩
      · rw [← h]
        rfl
      · rw [← h]
        rfl

/-- Witness for C5 at a vector combining the `TestNew` cases: a supplied
custom codec is kept and the user ignore entry follows the baseline. -/
theorem new_codec_default_and_ignore_baseline_witness :
    (New "\x7b\"type\": \"mytype\", \"codec\": \"json\", \"ignore\": [\"foo\"]\x7d" =
      Except.ok
        { Codec := "json", «Type» := "mytype", IgnoredFields := ["@version", "foo"] }) ∧
    (∃ (v : JSONValue) (doc : TestCaseDocument),
      parseJSON "\x7b\"type\": \"mytype\", \"codec\": \"json\", \"ignore\": [\"foo\"]\x7d" =
        some v ∧
      docOfValue v = Except.ok doc ∧
      ({ Codec := "json", «Type» := "mytype", IgnoredFields := ["@version", "foo"] } : TestCase) =
        fromDocument doc ∧
      (∃ fs, v = JSONValue.obj fs ∧
        getOptField asString fs "codec" = Except.ok doc.codec ∧
        getOptField asStringList fs "ignore" = Except.ok doc.ignore) ∧
      ({ Codec := "json", «Type» := "mytype", IgnoredFields := ["@version", "foo"] } : TestCase).Codec =
        (if doc.codec.getD "" = "" then "plain" else doc.codec.getD "") ∧
      ({ Codec := "json", «Type» := "mytype", IgnoredFields := ["@version", "foo"] } : TestCase).IgnoredFields =
        "@version" :: doc.ignore.getD []) :=
  ⟨by rfl,
    new_codec_default_and_ignore_baseline
      "\x7b\"type\": \"mytype\", \"codec\": \"json\", \"ignore\": [\"foo\"]\x7d"
      { Codec := "json", «Type» := "mytype", IgnoredFields := ["@version", "foo"] } (by rfl)⟩

/-- C6: the `File` field of a test case loaded through the file-based entry
point is the supplied path resolved to an absolute path: kept as is when
already absolute, joined to the current working directory otherwise. -/
theorem newFromFile_abs_path (files : List (String × String)) (cwd path : String)
    (tc : TestCase) (hcwd : isAbsPath cwd = true)
    (h : NewFromFile files cwd path = Except.ok tc) :
    tc.File = absPath cwd path ∧ isAbsPath tc.File = true ∧
      (isAbsPath path = false → tc.File = cwd ++ "/" ++ path) := by
  have hfile : tc.File = absPath cwd path := by
    unfold NewFromFile at h
    cases hr : (files.find? (fun f => f.1 == absPath cwd path)).map (fun f => f.2) with
    | none =>
      simp only [hr] at h
      exact Except.noConfusion h
    | some contents =>
      simp only [hr] at h
      cases hn : New contents with
      | error e =>
        simp only [hn] at h
        exact Except.noConfusion h
      | ok tc' =>
        simp only [hn, Except.ok.injEq] at h
        rw [← h]
  refine ⟨hfile, ?_, ?_⟩
  · rw [hfile, absPath]
    split
    · assumption
    · exact isAbsPath_append _ _ (isAbsPath_append _ _ hcwd)
  · intro hrel
    rw [hfile, absPath, if_neg (by simp [hrel])]

/-- Witness for C6 at the `TestNewFromFile` scenario: a relative name loaded
from an absolute working directory yields the joined absolute path. -/
theorem newFromFile_abs_path_witness :
    (isAbsPath "/tmp" = true) ∧
    (NewFromFile [("/tmp/test.json", "\x7b\"type\": \"test\"\x7d")] "/tmp" "test.json" =
      Except.ok tcFromFileSample) ∧
    (tcFromFileSample.File = absPath "/tmp" "test.json" ∧
      isAbsPath tcFromFileSample.File = true ∧
      (isAbsPath "test.json" = false →
        tcFromFileSample.File = "/tmp" ++ "/" ++ "test.json")) :=
  ⟨by rfl, by rfl,
    newFromFile_abs_path [("/tmp/test.json", "\x7b\"type\": \"test\"\x7d")] "/tmp" "test.json"
      tcFromFileSample (by rfl) (by rfl)⟩

/-- A decode failure is the only failure `New` produces: it never reports an
I/O error. -/
theorem new_no_ioerror (s : String) (msg : String) :
    New s ≠ Except.error (.IOError msg) := by
  intro hm
  unfold New at hm
  cases hp : parseJSON s with
  | none =>
    simp only [hp] at hm
    exact LoaderError.noConfusion (Except.error.inj hm)
  | some v =>
    simp only [hp] at hm
    cases hd : docOfValue v with
    | error m =>
      simp only [hd] at hm
      exact LoaderError.noConfusion (Except.error.inj hm)
    | ok doc =>
      simp only [hd] at hm
      exact Except.noConfusion hm

/-- C8: the loader fails with a `DecodeError` exactly when its input is
malformed or structurally invalid JSON and never with an `IOError`; the
file-based entry point fails with an `IOError` exactly when the file cannot
be read; a decode failure inside it is propagated to the caller unmodified;
and no error case ever returns a `TestCase`. -/
theorem loader_error_taxonomy :
    (∀ s : String, (∃ msg, New s = Except.error (.DecodeError msg)) ↔
      (parseJSON s = none ∨ ∃ v msg, parseJSON s = some v ∧ docOfValue v = .error msg)) ∧
    (∀ (s : String) (msg : String), New s ≠ Except.error (.IOError msg)) ∧
    (∀ (files : List (String × String)) (cwd path : String),
      (∃ msg, NewFromFile files cwd path = Except.error (.IOError msg)) ↔
        files.find? (fun f => f.1 == absPath cwd path) = none) ∧
    (∀ (files : List (String × String)) (cwd path : String) (contents : String)
        (e : LoaderError),
      (files.find? (fun f => f.1 == absPath cwd path)).map (fun f => f.2) = some contents →
      New contents = Except.error e →
      NewFromFile files cwd path = Except.error e) ∧
    (∀ (s : String) (e : LoaderError) (tc : TestCase),
      New s = Except.error e → New s ≠ Except.ok tc) := by
  refine ⟨?_, new_no_ioerror, ?_, ?_, ?_⟩
  · intro s
    constructor
    · rintro ⟨msg, hm⟩
      unfold New at hm
      cases hp : parseJSON s with
      | none => exact Or.inl rfl
      | some v =>
        simp only [hp] at hm
        cases hd : docOfValue v with
        | error m => exact Or.inr ⟨v, m, rfl, hd⟩
        | ok doc =>
          simp only [hd] at hm
          exact Except.noConfusion hm
    · rintro (hp | ⟨v, msg, hp, hd⟩)
      · exact ⟨"json: invalid character in test case", by unfold New; rw [hp]⟩
      · exact ⟨msg, by unfold New; rw [hp]; simp only [hd]⟩
  · intro files cwd path
    constructor
    · rintro ⟨msg, hm⟩
      unfold NewFromFile at hm
      cases hr : files.find? (fun f => f.1 == absPath cwd path) with
      | none => rfl
      | some f =>
        simp only [hr, Option.map_some'] at hm
        cases hn : New f.2 with
        | error e =>
          simp only [hn] at hm
          simp only [Except.error.injEq] at hm
          exact absurd (by rw [hn, hm]) (new_no_ioerror f.2 msg)
        | ok tc' =>
          simp only [hn] at hm
          exact Except.noConfusion hm
    · intro hr
      refine ⟨"open " ++ absPath cwd path ++ ": no such file or directory", ?_⟩
      unfold NewFromFile
      simp only [hr, Option.map_none']
  · intro files cwd path contents e hr hn
    unfold NewFromFile
    cases hf : files.find? (fun f => f.1 == absPath cwd path) with
    | none =>
      rw [hf] at hr
      simp at hr
    | some f =>
      rw [hf] at hr
      simp only [Option.map_some', Option.some.injEq] at hr
      simp only [hf, Option.map_some', hr, hn]
  · intro s e tc he ho
    rw [he] at ho
    exact Except.noConfusion ho

/-- Witness for C8: a malformed document fails with a `DecodeError`, and a
read of a missing file fails with an `IOError`. -/
theorem loader_error_taxonomy_witness :
    ((∃ msg, New "not json" = Except.error (.DecodeError msg)) ↔
      (parseJSON "not json" = none ∨
        ∃ v msg, parseJSON "not json" = some v ∧ docOfValue v = .error msg)) ∧
    ((∃ msg, NewFromFile [] "/tmp" "missing.json" = Except.error (.IOError msg)) ↔
      List.find? (fun f => f.1 == absPath "/tmp" "missing.json")
        ([] : List (String × String)) = none) :=
  ⟨loader_error_taxonomy.1 "not json",
    (loader_error_taxonomy.2.2.1 [] "/tmp" "missing.json")⟩
